import Mathlib

/-
Verification development for the VBM/FreeSurfer divergence-estimation core.

The embedding covers the two source files that contain the numerical core:

* `vbm-mind.py`: `get_KL` (k-NN based multivariate KL estimator) and
  `calculate_mind_network` (MIND similarity-network assembly).
* the unnamed file "FreeSurfer & VBM-Based KL Divergence Computation.py":
  the per-pair histogram KL computation inside `compute_kl_divergence`
  (numpy `histogram(..., density=True)`, the `1e-10` floor, and
  `scipy.stats.entropy`) and the per-subject driver in `main` that computes
  one shared bin-edge sequence from the pooled samples.

Modelling conventions:

* Feature rows and scalar samples carry rational entries; real-valued
  quantities (square roots, logarithms, densities) live in `ℝ`.  Floating
  point rounding is not modelled.
* `scipy.spatial.cKDTree.query(..., eps=0.01)` returns distances of
  eps-approximate nearest neighbours; the embedding instantiates the
  query with the exact nearest-neighbour distances, which satisfy the
  approximation contract.  A query for a neighbour that does not exist
  (second neighbour in a one-point tree, any neighbour in an empty tree)
  yields `inf` in scipy; this is modelled by `Option` with `none` for
  `inf`, and the `np.isfinite` filter drops exactly the `none` cases.
* numpy float division of a nonzero count by zero total would produce
  `nan`; `histogram(..., density=True)` yields an all-`nan` vector exactly
  when the in-range count is zero.  Since `ℝ` has no `nan`, the per-pair
  histogram estimator returns `Option ℝ` with `none` standing for a
  `nan`-poisoned result.
* An uncaught Python exception (the `KeyError` raised by `kdtrees[name]`
  for a label with no rows) is modelled by `none` in
  `calculate_mind_network`.
-/

namespace VBM

/-- A feature row with `dd` rational columns (one row of `feature_cols`). -/
abbrev Pt (dd : ℕ) := Fin dd → ℚ

variable {dd : ℕ} {L : Type} [DecidableEq L]

/-- Squared Euclidean distance between two feature rows; the source queries
KD-trees with `p=2` (Euclidean metric). -/
def sqDist (a b : Pt dd) : ℚ := ∑ i, (a i - b i) ^ 2

/-- Squared distance from `p` to its nearest point of `y`: models
`ytree.query(x, k=1, eps=0.01, p=2)[0]` (squared, exact).  `none` models the
`inf` scipy returns when the tree is empty. -/
def minSq (y : List (Pt dd)) (p : Pt dd) : Option ℚ := (y.map (sqDist p)).min?

/-- Squared distance from `p` to its second-nearest point of `x` (with
multiplicity, self included): models `xtree.query(x, k=2, eps=0.01, p=2)[0][:, 1]`
(squared, exact).  `none` models the `inf` scipy returns when the tree holds
fewer than two points. -/
def secondMinSq (x : List (Pt dd)) (p : Pt dd) : Option ℚ :=
  match (x.map (sqDist p)).min? with
  | none => none
  | some a => ((x.map (sqDist p)).erase a).min?

/-- The surviving `(r², s²)` pairs of `get_KL`, one per point of `x` whose
ratio `r/s` passes the filters of lines 56-57 of `vbm-mind.py`:
`np.divide(r, s, out=zeros, where=(s != 0) & (r != 0))` writes `0` (later
dropped by the `!= 0` filter) whenever `r = 0` or `s = 0`, and the
`np.isfinite` filter drops the `inf` (here `none`) distances; a real quotient
of two nonzero distances is automatically finite and nonzero. -/
def survivors (x y : List (Pt dd)) : List (ℚ × ℚ) :=
  x.filterMap fun p =>
    match secondMinSq x p, minSq y p with
    | some r2, some s2 => if r2 ≠ 0 ∧ s2 ≠ 0 then some (r2, s2) else none
    | _, _ => none

/-- `get_KL(x, y, xtree, ytree)` of `vbm-mind.py` (lines 46-63), with
`xtree`/`ytree` the KD-trees over `x` and `y` themselves, as at every call
site.  `n, d = x.shape`, `m, _ = y.shape`; if no ratio survives the filter
the function returns `0`, otherwise
`max(-log(ratios).sum() * d / n + log(m / (n - 1.0)), 0)`. -/
noncomputable def get_KL (x y : List (Pt dd)) : ℝ :=
  let n : ℕ := x.length
  let m : ℕ := y.length
  let rs := survivors x y
  if rs.length = 0 then 0
  else
    max ((-(rs.map fun p =>
          Real.log (Real.sqrt (p.1 : ℝ) / Real.sqrt (p.2 : ℝ))).sum) * dd / n
        + Real.log ((m : ℝ) / ((n : ℝ) - 1))) 0

/-- Spec-side Euclidean distance between two feature rows, written as the
claims state it (real-valued root of the sum of squared coordinate
differences). -/
noncomputable def specDist (a b : Pt dd) : ℝ :=
  Real.sqrt (∑ i, ((a i : ℝ) - (b i : ℝ)) ^ 2)

/-- Spec-side nearest-neighbour distance of `p` in `y` (a real number). -/
noncomputable def specNN (y : List (Pt dd)) (p : Pt dd) : Option ℝ :=
  (y.map (specDist p)).min?

/-- Spec-side second-nearest-neighbour distance (with multiplicity) of `p`
within `x` (a real number). -/
noncomputable def specSecondNN (x : List (Pt dd)) (p : Pt dd) : Option ℝ :=
  match (x.map (specDist p)).min? with
  | none => none
  | some a => ((x.map (specDist p)).erase a).min?

/-- Spec-side ratio list of claim C1: `ratio_i = r_i / s_i` with `r_i` the
second-nearest-neighbour distance of `x_i` within `X` and `s_i` the
nearest-neighbour distance of `x_i` in `Y`, kept only when both distances
are defined (finite) and nonzero. -/
noncomputable def specRatios (x y : List (Pt dd)) : List ℝ :=
  x.filterMap fun p =>
    match specSecondNN x p, specNN y p with
    | some r, some s => if r ≠ 0 ∧ s ≠ 0 then some (r / s) else none
    | _, _ => none

/-! ### Univariate histogram estimator (unnamed source file, lines 75-85) -/

/-- The bins of a numpy histogram over explicit `edges`: consecutive pairs
of edges. -/
def intervals (edges : List ℚ) : List (ℚ × ℚ) := edges.zip edges.tail

/-- numpy bin membership: half-open `[lo, hi)` for every bin except the
last, which is closed `[lo, hi]`. -/
def binPred (isLast : Bool) (lo hi v : ℚ) : Bool :=
  decide (lo ≤ v) && (if isLast then decide (v ≤ hi) else decide (v < hi))

/-- Count the sample values in each listed bin; only the final bin is
right-closed. -/
def histCountsGo (sample : List ℚ) : List (ℚ × ℚ) → List ℕ
  | [] => []
  | [p] => [sample.countP (binPred true p.1 p.2)]
  | p :: q :: rest =>
      sample.countP (binPred false p.1 p.2) :: histCountsGo sample (q :: rest)

/-- Per-bin counts of `np.histogram(sample, bins=edges)`. -/
def histCounts (edges : List ℚ) (sample : List ℚ) : List ℕ :=
  histCountsGo sample (intervals edges)

/-- Number of sample values that fall inside some bin (numpy's `n.sum()`,
the normaliser of `density=True`). -/
def inRange (edges sample : List ℚ) : ℕ := (histCounts edges sample).sum

/-- numpy `density=True` histogram values: `count / (inRangeTotal * width)`.
Meaningful only when the in-range total is nonzero (otherwise numpy yields
`nan`; the caller `kl_div` guards that case). -/
noncomputable def densities (edges sample : List ℚ) : List ℝ :=
  let T : ℕ := inRange edges sample
  ((histCounts edges sample).zip (intervals edges)).map fun ci =>
    (ci.1 : ℝ) / ((T : ℝ) * ((ci.2.2 - ci.2.1 : ℚ) : ℝ))

/-- The floor substituted for zero-density bins (source: `1e-10`). -/
noncomputable def floorVal : ℝ := 1 / 10 ^ 10

/-- `np.where(hist == 0, 1e-10, hist)` applied to the density histogram. -/
noncomputable def floored (edges sample : List ℚ) : List ℝ :=
  (densities edges sample).map fun p => if p = 0 then floorVal else p

/-- `scipy.stats.entropy(p, q)`: both vectors are first renormalised to sum
to one, then `rel_entr` is summed; with strictly positive entries this is
`Σ (pᵢ/Σp) · log((pᵢ/Σp) / (qᵢ/Σq))` in natural log. -/
noncomputable def entropy (p q : List ℝ) : ℝ :=
  ((p.zip q).map fun ab =>
    (ab.1 / p.sum) * Real.log ((ab.1 / p.sum) / (ab.2 / q.sum))).sum

/-- One iteration of the pair loop of `compute_kl_divergence` (lines 79-85):
histogram both samples over the shared edges, floor the zero bins, apply
`scipy.stats.entropy`.  `none` models the `nan` produced by numpy's
`density=True` normalisation when a sample has no value inside the bins
(division of the counts by a zero total). -/
noncomputable def kl_div (dist1 dist2 edges : List ℚ) : Option ℝ :=
  if inRange edges dist1 = 0 ∨ inRange edges dist2 = 0 then none
  else some (entropy (floored edges dist1) (floored edges dist2))

/-- Spec-side value of claim C6: `Σ pA[i] * ln(pA[i] / pB[i])` over the
floored (but not renormalised) density histograms. -/
noncomputable def claimedUniKL (dist1 dist2 edges : List ℚ) : ℝ :=
  (((floored edges dist1).zip (floored edges dist2)).map fun ab =>
    ab.1 * Real.log (ab.1 / ab.2)).sum

/-- Valid numpy bin edges: strictly increasing boundaries. -/
def StrictEdges (edges : List ℚ) : Prop := edges.Chain' (· < ·)

/-! ### Per-subject driver (unnamed source file, `main`, lines 125-133) -/

/-- `itertools.combinations(names, 2)` in list order. -/
def combPairs {α : Type} : List α → List (α × α)
  | [] => []
  | x :: xs => (xs.map fun y => (x, y)) ++ combPairs xs

/-- The edges of `np.histogram(big_dist, bins=100)`: numpy takes the data
range (expanded to `(v - 0.5, v + 0.5)` for constant data, `(0, 1)` for
empty data) and splits it into `bins` equal intervals. -/
def binEdges (l : List ℚ) (bins : ℕ) : List ℚ :=
  let lohi : ℚ × ℚ :=
    match l.min?, l.max? with
    | some mn, some mx => if mn = mx then (mn - 1 / 2, mx + 1 / 2) else (mn, mx)
    | _, _ => (0, 1)
  (List.range (bins + 1)).map fun i => lohi.1 + (lohi.2 - lohi.1) * i / bins

/-- `compute_kl_divergence(distributions, bin_edges_big, ...)`: one record
(region pair plus divergence value) per combination of region names, every
pair computed against the single `edges` argument. -/
noncomputable def compute_kl_divergence (dists : List (L × List ℚ))
    (edges : List ℚ) : List (L × L × Option ℝ) :=
  (combPairs (dists.map Prod.fst)).map fun pr =>
    (pr.1, pr.2,
      kl_div ((dists.lookup pr.1).getD []) ((dists.lookup pr.2).getD []) edges)

/-- The per-subject computation of `main` (lines 125-133): pool every
region's sample into `big_dist`, derive one bin-edge sequence from the pool,
and hand that single sequence to `compute_kl_divergence`. -/
noncomputable def main_subject (dists : List (L × List ℚ)) :
    List (L × L × Option ℝ) :=
  compute_kl_divergence dists (binEdges ((dists.map Prod.snd).flatten) 100)

/-! ### MIND network assembly (`calculate_mind_network`, lines 65-82) -/

/-- Rows of the data frame carrying label `l`
(`data_df[data_df['Label'] == l][feature_cols]`). -/
def rowsOf (rows : List (L × Pt dd)) (l : L) : List (Pt dd) :=
  (rows.filter fun r => decide (r.1 = l)).map Prod.snd

/-- Line 70: `data_df = data_df.loc[data_df['Label'].isin(region_list)]`. -/
def restrictRows (rl : List L) (rows : List (L × Pt dd)) : List (L × Pt dd) :=
  rows.filter fun r => decide (r.1 ∈ rl)

/-- The ordered pair enumeration of line 73:
`[(x, y) for x in region_list for y in region_list if x != y]`. -/
def ordPairs (rl : List L) : List (L × L) :=
  rl.flatMap fun x => (rl.filter fun y => decide (x ≠ y)).map fun y => (x, y)

/-- The value stored for the ordered pair `(x, y)`:
`1 / (1 + (KLa + KLb))` with `KLa = get_KL(x-data, y-data, tree_x, tree_y)`
and `KLb = get_KL(y-data, x-data, tree_y, tree_x)`. -/
noncomputable def simVal (df : List (L × Pt dd)) (x y : L) : ℝ :=
  1 / (1 + (get_KL (rowsOf df x) (rowsOf df y) + get_KL (rowsOf df y) (rowsOf df x)))

/-- One iteration of the pair loop: looking up `kdtrees[label]` for a label
with no rows raises `KeyError` (modelled by `none`, an uncaught exception);
otherwise `mind.at[x, y] = similarity` overwrites the single cell `(x, y)`. -/
noncomputable def mindStep (df : List (L × Pt dd)) (mind : L → L → ℝ)
    (p : L × L) : Option (L → L → ℝ) :=
  if rowsOf df p.1 = [] ∨ rowsOf df p.2 = [] then none
  else some fun a b => if a = p.1 ∧ b = p.2 then simVal df p.1 p.2 else mind a b

/-- `calculate_mind_network(data_df, feature_cols, region_list)`: start from
the zero matrix, restrict the rows to the listed labels, and run the pair
loop; `none` models an uncaught `KeyError`. -/
noncomputable def calculate_mind_network (rl : List L)
    (rows : List (L × Pt dd)) : Option (L → L → ℝ) :=
  List.foldlM (mindStep (restrictRows rl rows)) (fun _ _ => 0) (ordPairs rl)

/-! ### Concrete inputs used by the witnesses and counterexamples -/

/-- A one-dimensional feature row. -/
def c (q : ℚ) : Pt 1 := fun _ => q

/-- A two-point one-dimensional feature matrix. -/
def X₀ : List (Pt 1) := [c 0, c 1]

/-- A one-point one-dimensional feature matrix. -/
def Y₀ : List (Pt 1) := [c 3]

/-- Concrete bin edges: two bins of width `1/2`. -/
def E₀ : List ℚ := [0, 1 / 2, 1]

/-- A one-value scalar sample falling in the first bin of `E₀`. -/
def A₀ : List ℚ := [1 / 4]

/-- A one-value scalar sample falling in the second bin of `E₀`. -/
def B₀ : List ℚ := [3 / 4]

/-- Region data giving one row to each of the labels 0 and 1. -/
def rows₀ : List (ℕ × Pt 1) := [(0, c 0), (1, c 1)]

/-- Region data giving a row only to label 0 (label 1 has no rows). -/
def rows₁ : List (ℕ × Pt 1) := [(0, c 0)]

/-- The all-zero similarity matrix the pair loop starts from. -/
noncomputable def zeroMat : ℕ → ℕ → ℝ := fun _ _ => 0

/-- A concrete two-region scalar-sample table for the per-subject driver. -/
def dists₀ : List (ℕ × List ℚ) := [(0, A₀), (1, B₀)]

/-! ## Helper lemmas: squared distances and nearest neighbours -/

theorem sqDist_nonneg (a b : Pt dd) : 0 ≤ sqDist a b :=
  Finset.sum_nonneg fun _ _ => sq_nonneg _

theorem sqDist_self (a : Pt dd) : sqDist a a = 0 := by
  simp [sqDist]

theorem minSq_nonneg {y : List (Pt dd)} {p : Pt dd} {s2 : ℚ}
    (h : minSq y p = some s2) : 0 ≤ s2 := by
  unfold minSq at h
  obtain ⟨q, _, rfl⟩ := List.mem_map.1 (List.min?_mem (fun a b => min_choice a b) h)
  exact sqDist_nonneg p q

theorem secondMinSq_nonneg {x : List (Pt dd)} {p : Pt dd} {r2 : ℚ}
    (h : secondMinSq x p = some r2) : 0 ≤ r2 := by
  unfold secondMinSq at h
  cases hmin : (x.map (sqDist p)).min? with
  | none => rw [hmin] at h; exact absurd h (by simp)
  | some a =>
      rw [hmin] at h
      have hmem := List.min?_mem (fun a b => min_choice a b) h
      have hmem' := List.mem_of_mem_erase hmem
      obtain ⟨q, _, rfl⟩ := List.mem_map.1 hmem'
      exact sqDist_nonneg p q

theorem foldl_min_map {α β : Type} [LinearOrder α] [LinearOrder β]
    (f : α → β) (hf : Monotone f) :
    ∀ (t : List α) (a : α), List.foldl min (f a) (t.map f) = f (List.foldl min a t)
  | [], _ => rfl
  | b :: t, a => by
      simp only [List.map_cons, List.foldl_cons, ← hf.map_min]
      exact foldl_min_map f hf t (min a b)

theorem min?_map_mono {α β : Type} [LinearOrder α] [LinearOrder β]
    (f : α → β) (hf : Monotone f) (l : List α) :
    (l.map f).min? = (l.min?).map f := by
  cases l with
  | nil => rfl
  | cons a t =>
      show ((a :: t).map f).min? = some (f (List.foldl min a t))
      rw [List.map_cons]
      show some (List.foldl min (f a) (t.map f)) = some (f (List.foldl min a t))
      rw [foldl_min_map f hf]

theorem map_erase_of_injOn {α β : Type} [BEq α] [LawfulBEq α] [BEq β] [LawfulBEq β]
    (f : α → β) :
    ∀ (l : List α) (a : α), (∀ z ∈ l, f z = f a → z = a) →
      (l.map f).erase (f a) = (l.erase a).map f
  | [], _, _ => rfl
  | b :: t, a, h => by
      by_cases hba : b = a
      · subst hba
        rw [List.map_cons, List.erase_cons_head, List.erase_cons_head]
      · have hfba : f b ≠ f a := fun heq => hba (h b (by simp) heq)
        rw [List.map_cons, List.erase_cons_tail (by simp [hfba]),
          List.erase_cons_tail (by simp [hba]), List.map_cons,
          map_erase_of_injOn f t a (fun z hz => h z (List.mem_cons_of_mem _ hz))]

/-- The monotone map sending a squared rational distance to the real
distance. -/
theorem sqrtQ_mono : Monotone fun q : ℚ => Real.sqrt (q : ℝ) :=
  fun _ _ h => Real.sqrt_le_sqrt (by exact_mod_cast h)

theorem specDist_eq (a b : Pt dd) :
    specDist a b = Real.sqrt ((sqDist a b : ℚ) : ℝ) := by
  unfold specDist sqDist
  push_cast
  rfl

theorem map_specDist (x : List (Pt dd)) (p : Pt dd) :
    x.map (specDist p) = (x.map (sqDist p)).map fun q : ℚ => Real.sqrt (q : ℝ) := by
  rw [List.map_map]
  exact List.map_congr_left fun q _ => specDist_eq p q

theorem specNN_eq (y : List (Pt dd)) (p : Pt dd) :
    specNN y p = (minSq y p).map fun q : ℚ => Real.sqrt (q : ℝ) := by
  unfold specNN minSq
  rw [map_specDist, min?_map_mono _ sqrtQ_mono]

theorem specSecondNN_eq (x : List (Pt dd)) (p : Pt dd) :
    specSecondNN x p = (secondMinSq x p).map fun q : ℚ => Real.sqrt (q : ℝ) := by
  unfold specSecondNN secondMinSq
  rw [map_specDist, min?_map_mono _ sqrtQ_mono]
  cases hmin : (x.map (sqDist p)).min? with
  | none => rfl
  | some a =>
      simp only [Option.map_some']
      have hinj : ∀ z ∈ x.map (sqDist p),
          (fun q : ℚ => Real.sqrt (q : ℝ)) z = (fun q : ℚ => Real.sqrt (q : ℝ)) a →
          z = a := by
        intro z hz hsq
        have hz0 : (0 : ℚ) ≤ z := by
          obtain ⟨q, _, rfl⟩ := List.mem_map.1 hz
          exact sqDist_nonneg p q
        have ha0 : (0 : ℚ) ≤ a := by
          obtain ⟨q, _, rfl⟩ :=
            List.mem_map.1 (List.min?_mem (fun a b => min_choice a b) hmin)
          exact sqDist_nonneg p q
        have := (Real.sqrt_inj (by exact_mod_cast hz0) (by exact_mod_cast ha0)).1 hsq
        exact_mod_cast this
      rw [map_erase_of_injOn _ _ _ hinj, min?_map_mono _ sqrtQ_mono]

theorem filterMap_congr_mem {α β : Type} (f g : α → Option β) :
    ∀ (l : List α), (∀ a ∈ l, f a = g a) → l.filterMap f = l.filterMap g
  | [], _ => rfl
  | a :: t, h => by
      rw [List.filterMap_cons, List.filterMap_cons, h a (by simp),
        filterMap_congr_mem f g t (fun z hz => h z (List.mem_cons_of_mem _ hz))]

/-- The bridge between the spec-side ratio list (real distances) and the
source-side surviving squared-distance pairs. -/
theorem specRatios_eq (x y : List (Pt dd)) :
    specRatios x y =
      (survivors x y).map fun p => Real.sqrt (p.1 : ℝ) / Real.sqrt (p.2 : ℝ) := by
  unfold specRatios survivors
  rw [List.map_filterMap]
  apply filterMap_congr_mem
  intro p _
  rw [specSecondNN_eq, specNN_eq]
  cases h1 : secondMinSq x p with
  | none => rfl
  | some r2 =>
      cases h2 : minSq y p with
      | none => rfl
      | some s2 =>
          have hr0 : (0 : ℚ) ≤ r2 := secondMinSq_nonneg h1
          have hs0 : (0 : ℚ) ≤ s2 := minSq_nonneg h2
          have hre : (Real.sqrt (r2 : ℝ) ≠ 0) ↔ r2 ≠ 0 := by
            rw [not_iff_not, Real.sqrt_eq_zero (by exact_mod_cast hr0)]
            exact_mod_cast Iff.rfl
          have hse : (Real.sqrt (s2 : ℝ) ≠ 0) ↔ s2 ≠ 0 := by
            rw [not_iff_not, Real.sqrt_eq_zero (by exact_mod_cast hs0)]
            exact_mod_cast Iff.rfl
          simp only [Option.map_some']
          by_cases hc : r2 ≠ 0 ∧ s2 ≠ 0
          · rw [if_pos hc, if_pos ⟨hre.2 hc.1, hse.2 hc.2⟩]
            rfl
          · rw [if_neg hc, if_neg (by rw [hre, hse]; exact hc)]
            rfl

/-! ## Helper lemmas: `get_KL` -/

theorem get_KL_nonneg (x y : List (Pt dd)) : 0 ≤ get_KL x y := by
  unfold get_KL
  dsimp only
  split
  · exact le_refl 0
  · exact le_max_right _ 0

theorem get_KL_of_no_survivors {x y : List (Pt dd)} (h : survivors x y = []) :
    get_KL x y = 0 := by
  unfold get_KL
  rw [if_pos (by rw [h]; rfl)]

theorem survivors_singleton (p : Pt dd) (y : List (Pt dd)) :
    survivors [p] y = [] := by
  unfold survivors
  rw [List.filterMap_cons, List.filterMap_nil]
  have h2 : secondMinSq [p] p = none := by
    unfold secondMinSq
    rw [List.map_cons, List.map_nil]
    rw [sqDist_self]
    rfl
  rw [h2]

/-- Concrete evaluation of the surviving pairs for the witness input: both
points of `X₀` survive, with squared second-neighbour distance `1` and
squared nearest-`Y₀` distances `9` and `4`. -/
theorem survivors_X₀_Y₀ : survivors X₀ Y₀ = [(1, 9), (1, 4)] := by
  show survivors [c 0, c 1] [c 3] = [(1, 9), (1, 4)]
  simp [survivors, List.filterMap_cons, secondMinSq, minSq, sqDist, c,
    Fin.sum_univ_one, List.min?, min_def, List.erase, beq_eq_decide]
  norm_num

/-! ## Claim C1: the multivariate estimator formula -/

/-- C1: whenever `X` has at least two rows, `Y` at least one, and at least
one ratio survives the filtering, `get_KL` returns exactly
`max(0, -(d/n) · Σ ln(ratio_i) + ln(m/(n-1)))`, where the ratios are the
surviving quotients of real second-neighbour and nearest-neighbour
distances and `n` is the full row count of `X`. -/
theorem claim1_get_KL_formula (x y : List (Pt dd))
    (hn : 2 ≤ x.length) (hm : 1 ≤ y.length) (hs : survivors x y ≠ []) :
    get_KL x y =
      max 0 (-((dd : ℝ) / (x.length : ℝ)) * ((specRatios x y).map Real.log).sum
        + Real.log ((y.length : ℝ) / ((x.length : ℝ) - 1))) := by
  unfold get_KL
  dsimp only
  rw [if_neg (by simpa using hs), specRatios_eq, List.map_map, max_comm]
  congr 1
  simp only [Function.comp_def]
  ring

/-- Witness for C1 at the concrete input `X₀ = [0, 1]`, `Y₀ = [3]` (one
feature column). -/
theorem claim1_witness :
    2 ≤ X₀.length ∧ 1 ≤ Y₀.length ∧ survivors X₀ Y₀ ≠ [] ∧
      get_KL X₀ Y₀ =
        max 0 (-(((1 : ℕ) : ℝ) / (X₀.length : ℝ)) * ((specRatios X₀ Y₀).map Real.log).sum
          + Real.log ((Y₀.length : ℝ) / ((X₀.length : ℝ) - 1))) := by
  have hs : survivors X₀ Y₀ ≠ [] := by
    rw [survivors_X₀_Y₀]
    simp
  exact ⟨by decide, by decide, hs,
    claim1_get_KL_formula X₀ Y₀ (by decide) (by decide) hs⟩

/-! ## Claim C5: degenerate multivariate inputs return 0 -/

/-- C5: a one-row source matrix, and more generally any input on which no
ratio survives the filtering, makes `get_KL` return `0`.  (As a total Lean
function the embedding also certifies that no exception is raised on these
inputs: scipy's `inf` second-neighbour distance is filtered out before the
`log(m / (n-1))` expression could ever divide by zero.) -/
theorem claim5_degenerate_zero (x y : List (Pt dd)) :
    (x.length = 1 → get_KL x y = 0) ∧ (survivors x y = [] → get_KL x y = 0) := by
  constructor
  · intro h
    obtain ⟨p, rfl⟩ := List.length_eq_one.1 h
    exact get_KL_of_no_survivors (survivors_singleton p y)
  · exact get_KL_of_no_survivors

/-- Witness for C5: the one-row matrix `Y₀ = [3]` against `X₀`. -/
theorem claim5_witness :
    (Y₀.length = 1 ∧ get_KL Y₀ X₀ = 0) ∧
      (survivors Y₀ X₀ = [] ∧ get_KL Y₀ X₀ = 0) := by
  have h2 : survivors Y₀ X₀ = [] := survivors_singleton (c 3) X₀
  exact ⟨⟨rfl, (claim5_degenerate_zero Y₀ X₀).1 rfl⟩,
    ⟨h2, (claim5_degenerate_zero Y₀ X₀).2 h2⟩⟩

/-! ## Helper lemmas: MIND network assembly -/

theorem mem_ordPairs {rl : List L} {a b : L} :
    (a, b) ∈ ordPairs rl ↔ a ∈ rl ∧ b ∈ rl ∧ a ≠ b := by
  unfold ordPairs
  simp only [List.mem_flatMap, List.mem_map, List.mem_filter,
    decide_eq_true_eq]
  constructor
  · rintro ⟨x, hx, y, ⟨hy, hxy⟩, heq⟩
    obtain ⟨rfl, rfl⟩ := Prod.mk.injEq .. ▸ heq
    exact ⟨hx, hy, hxy⟩
  · rintro ⟨ha, hb, hab⟩
    exact ⟨a, ha, b, ⟨hb, hab⟩, rfl⟩

theorem rowsOf_restrict {rl : List L} (rows : List (L × Pt dd)) {l : L}
    (hl : l ∈ rl) :
    rowsOf (restrictRows rl rows) l = rowsOf rows l := by
  unfold rowsOf restrictRows
  rw [List.filter_filter]
  congr 1
  apply List.filter_congr
  intro r _
  by_cases h : r.1 = l
  · simp [h, hl]
  · simp [h]

theorem simVal_restrict {rl : List L} (rows : List (L × Pt dd)) {a b : L}
    (ha : a ∈ rl) (hb : b ∈ rl) :
    simVal (restrictRows rl rows) a b = simVal rows a b := by
  unfold simVal
  rw [rowsOf_restrict rows ha, rowsOf_restrict rows hb]

theorem simVal_comm (df : List (L × Pt dd)) (a b : L) :
    simVal df a b = simVal df b a := by
  unfold simVal
  rw [add_comm (get_KL (rowsOf df a) (rowsOf df b)) (get_KL (rowsOf df b) (rowsOf df a))]

theorem mindStep_some {df : List (L × Pt dd)} {mind : L → L → ℝ} {p : L × L}
    (h1 : rowsOf df p.1 ≠ []) (h2 : rowsOf df p.2 ≠ []) :
    mindStep df mind p =
      some fun a b => if a = p.1 ∧ b = p.2 then simVal df p.1 p.2 else mind a b := by
  unfold mindStep
  rw [if_neg (by simp [h1, h2])]

/-- Running the pair loop when every listed pair has data: the loop
completes, and a cell holds the similarity value of its own ordered pair
exactly when that pair was visited (later visits of the same ordered pair
overwrite with the same value). -/
theorem mind_fold_some (df : List (L × Pt dd)) :
    ∀ (pairs : List (L × L)) (m0 : L → L → ℝ),
      (∀ p ∈ pairs, rowsOf df p.1 ≠ [] ∧ rowsOf df p.2 ≠ []) →
      ∃ M, List.foldlM (mindStep df) m0 pairs = some M ∧
        ∀ a b, M a b = if (a, b) ∈ pairs then simVal df a b else m0 a b
  | [], m0, _ => ⟨m0, rfl, by simp⟩
  | p :: ps, m0, h => by
      obtain ⟨M, hM, hval⟩ := mind_fold_some df ps
        (fun a b => if a = p.1 ∧ b = p.2 then simVal df p.1 p.2 else m0 a b)
        (fun q hq => h q (List.mem_cons_of_mem _ hq))
      refine ⟨M, ?_, ?_⟩
      · rw [List.foldlM_cons, mindStep_some (h p (by simp)).1 (h p (by simp)).2]
        exact hM
      · intro a b
        rw [hval a b]
        by_cases hmem : (a, b) ∈ ps
        · rw [if_pos hmem, if_pos (List.mem_cons_of_mem _ hmem)]
        · rw [if_neg hmem]
          by_cases hab : a = p.1 ∧ b = p.2
          · have hp : (a, b) = p := by
              obtain ⟨h1, h2⟩ := hab
              cases p
              simp_all
            rw [if_pos hab, if_pos (by rw [hp]; exact List.mem_cons_self _ _)]
            rw [hab.1, hab.2]
          · rw [if_neg hab, if_neg ?_]
            intro hmem'
            rcases List.mem_cons.1 hmem' with heq | hmem''
            · exact hab (by cases p; cases heq; exact ⟨rfl, rfl⟩)
            · exact hmem hmem''

/-- If some visited pair has a label with no rows, the loop dies with a
`KeyError` (modelled `none`). -/
theorem mind_fold_none (df : List (L × Pt dd)) :
    ∀ (pairs : List (L × L)) (m0 : L → L → ℝ),
      (∃ p ∈ pairs, rowsOf df p.1 = [] ∨ rowsOf df p.2 = []) →
      List.foldlM (mindStep df) m0 pairs = none
  | [], _, h => absurd h (by simp)
  | p :: ps, m0, h => by
      rw [List.foldlM_cons]
      by_cases hbad : rowsOf df p.1 = [] ∨ rowsOf df p.2 = []
      · unfold mindStep
        rw [if_pos hbad]
        rfl
      · rw [mindStep_some (not_or.1 hbad).1 (not_or.1 hbad).2]
        have h' : ∃ q ∈ ps, rowsOf df q.1 = [] ∨ rowsOf df q.2 = [] := by
          rcases h with ⟨q, hq, hbadq⟩
          rcases List.mem_cons.1 hq with rfl | hq'
          · exact absurd hbadq hbad
          · exact ⟨q, hq', hbadq⟩
        show Option.bind _ _ = none
        rw [Option.some_bind]
        exact mind_fold_none df ps _ h'

/-- The completed network: entry `(a, b)` holds the similarity for every
visited ordered pair, i.e. for all `a ≠ b` drawn from the region list, and
`0` elsewhere. -/
theorem calculate_mind_network_some {rl : List L} {rows : List (L × Pt dd)}
    (h : ∀ l ∈ rl, rowsOf rows l ≠ []) :
    ∃ M, calculate_mind_network rl rows = some M ∧
      ∀ a b, M a b =
        if (a, b) ∈ ordPairs rl then simVal rows a b else 0 := by
  unfold calculate_mind_network
  have hdata : ∀ p ∈ ordPairs rl,
      rowsOf (restrictRows rl rows) p.1 ≠ [] ∧
      rowsOf (restrictRows rl rows) p.2 ≠ [] := by
    intro p hp
    obtain ⟨a, b⟩ := p
    obtain ⟨ha, hb, -⟩ := mem_ordPairs.1 hp
    exact ⟨by rw [rowsOf_restrict rows ha]; exact h a ha,
      by rw [rowsOf_restrict rows hb]; exact h b hb⟩
  obtain ⟨M, hM, hval⟩ := mind_fold_some (restrictRows rl rows) (ordPairs rl)
    (fun _ _ => 0) hdata
  refine ⟨M, hM, fun a b => ?_⟩
  rw [hval a b]
  by_cases hmem : (a, b) ∈ ordPairs rl
  · obtain ⟨ha, hb, -⟩ := mem_ordPairs.1 hmem
    rw [if_pos hmem, if_pos hmem, simVal_restrict rows ha hb]
  · rw [if_neg hmem, if_neg hmem]

theorem get_KL_singleton (p : Pt dd) (y : List (Pt dd)) : get_KL [p] y = 0 :=
  get_KL_of_no_survivors (survivors_singleton p y)

/-- With one row per region, both directional divergences vanish and every
stored similarity is `1`. -/
theorem simVal_rows₀ (a b : ℕ) (ha : a ≤ 1) (hb : b ≤ 1) :
    simVal rows₀ a b = 1 := by
  have h0 : rowsOf rows₀ 0 = [c 0] := rfl
  have h1 : rowsOf rows₀ 1 = [c 1] := rfl
  unfold simVal
  interval_cases a <;> interval_cases b <;>
    simp [h0, h1, get_KL_singleton]

theorem rows₀_data : ∀ l ∈ [0, 1], rowsOf rows₀ l ≠ [] := by
  intro l hl
  rcases List.mem_cons.1 hl with rfl | hl'
  · rw [show rowsOf rows₀ 0 = [c 0] from rfl]
    simp
  · rcases List.mem_cons.1 hl' with rfl | hl''
    · rw [show rowsOf rows₀ 1 = [c 1] from rfl]
      simp
    · exact absurd hl'' (List.not_mem_nil l)

/-! ## Claim C2: which cells does the pair loop write? -/

/-- Counterexample to C2 as stated: the claim asserts the mirrored cell
`(y, x)` stays at its default `0`, but the loop of line 73 enumerates *all*
ordered pairs, so for the two one-row regions `0` and `1` the completed
matrix holds `1` (not `0`) at cell `(1, 0)` even though `(0, 1)` is a
processed pair. -/
theorem claim2_counterexample :
    calculate_mind_network [0, 1] rows₀ ≠ none ∧
      (calculate_mind_network [0, 1] rows₀).elim 0 (fun M => M 1 0) = 1 ∧
      (calculate_mind_network [0, 1] rows₀).elim 0 (fun M => M 1 0) ≠ 0 := by
  obtain ⟨M, hM, hval⟩ :=
    calculate_mind_network_some rows₀_data
  rw [hM]
  refine ⟨by simp, ?_, ?_⟩
  · show M 1 0 = 1
    rw [hval, if_pos (by decide), simVal_rows₀ 1 0 (by norm_num) (by norm_num)]
  · show M 1 0 ≠ 0
    rw [hval, if_pos (by decide), simVal_rows₀ 1 0 (by norm_num) (by norm_num)]
    norm_num

/-- C2 as amended: each single iteration of the pair loop writes only its
own cell `(x, y)` (every other cell is unchanged); but the mirrored cell
`(y, x)` is *not* left at its default, because the loop also visits the
ordered pair `(y, x)` and that iteration stores the (identical) symmetrized
value there. -/
theorem claim2_amended {dd : ℕ} {L : Type} [DecidableEq L] :
    (∀ (df : List (L × Pt dd)) (mind : L → L → ℝ) (p : L × L) (m' : L → L → ℝ),
        mindStep df mind p = some m' →
        ∀ a b : L, ¬(a = p.1 ∧ b = p.2) → m' a b = mind a b) ∧
    (∀ (rl : List L) (rows : List (L × Pt dd)) (x y : L),
        x ∈ rl → y ∈ rl → x ≠ y → (∀ l ∈ rl, rowsOf rows l ≠ []) →
        ∃ M, calculate_mind_network rl rows = some M ∧
          M y x = simVal rows y x) := by
  constructor
  · intro df mind p m' h a b hab
    unfold mindStep at h
    by_cases hbad : rowsOf df p.1 = [] ∨ rowsOf df p.2 = []
    · rw [if_pos hbad] at h
      exact absurd h (by simp)
    · rw [if_neg hbad] at h
      injection h with h
      rw [← h]
      exact if_neg hab
  · intro rl rows x y hx hy hxy h
    obtain ⟨M, hM, hval⟩ := calculate_mind_network_some h
    exact ⟨M, hM, by
      rw [hval, if_pos (mem_ordPairs.2 ⟨hy, hx, hxy.symm⟩)]⟩

/-- Witness for (amended) C2 at the concrete two-region input. -/
theorem claim2_witness :
    (∃ m', mindStep rows₀ zeroMat ((0 : ℕ), (1 : ℕ)) = some m' ∧
      m' 1 0 = zeroMat 1 0) ∧
    (∃ M, calculate_mind_network [0, 1] rows₀ = some M ∧
      M 1 0 = simVal rows₀ 1 0) := by
  have h0 : rowsOf rows₀ (0 : ℕ) ≠ [] := rows₀_data 0 (by simp)
  have h1 : rowsOf rows₀ (1 : ℕ) ≠ [] := rows₀_data 1 (by simp)
  refine ⟨⟨_, mindStep_some h0 h1, ?_⟩, ?_⟩
  · exact claim2_amended.1 rows₀ zeroMat (0, 1) _ (mindStep_some h0 h1) 1 0 (by simp)
  · exact claim2_amended.2 [0, 1] rows₀ 0 1 (by simp) (by simp) (by decide) rows₀_data

/-! ## Claim C3: the completed matrix is symmetric -/

/-- C3: for a region list whose members all have data, the network build
completes, and for every pair of distinct listed regions the entries
`(x, y)` and `(y, x)` coincide — the loop visits both ordered pairs and the
stored value `1/(1 + KLa + KLb)` depends only on the unordered pair. -/
theorem claim3_mind_symmetric (rl : List L) (rows : List (L × Pt dd))
    (h : ∀ l ∈ rl, rowsOf rows l ≠ []) :
    ∃ M, calculate_mind_network rl rows = some M ∧
      ∀ x ∈ rl, ∀ y ∈ rl, x ≠ y → M x y = M y x := by
  obtain ⟨M, hM, hval⟩ := calculate_mind_network_some h
  refine ⟨M, hM, fun x hx y hy hxy => ?_⟩
  rw [hval, hval, if_pos (mem_ordPairs.2 ⟨hx, hy, hxy⟩),
    if_pos (mem_ordPairs.2 ⟨hy, hx, hxy.symm⟩), simVal_comm]

/-- Witness for C3 at the concrete two-region input. -/
theorem claim3_witness :
    ∃ M, calculate_mind_network [0, 1] rows₀ = some M ∧
      ∀ x ∈ [0, 1], ∀ y ∈ [0, 1], x ≠ y → M x y = M y x :=
  claim3_mind_symmetric [0, 1] rows₀ rows₀_data

/-! ## Claim C8: similarity bounds -/

/-- C8: every stored similarity `1/(1 + KLa + KLb)` lies in `(0, 1]` and is
`1` exactly when both directional divergences vanish (using that `get_KL`
is clamped to be nonnegative). -/
theorem claim8_similarity_bounds (rl : List L) (rows : List (L × Pt dd))
    (x y : L) (hx : x ∈ rl) (hy : y ∈ rl) (hxy : x ≠ y)
    (h : ∀ l ∈ rl, rowsOf rows l ≠ []) :
    ∃ M, calculate_mind_network rl rows = some M ∧
      M x y = 1 / (1 + (get_KL (rowsOf rows x) (rowsOf rows y)
        + get_KL (rowsOf rows y) (rowsOf rows x))) ∧
      0 < M x y ∧ M x y ≤ 1 ∧
      (M x y = 1 ↔ get_KL (rowsOf rows x) (rowsOf rows y) = 0
        ∧ get_KL (rowsOf rows y) (rowsOf rows x) = 0) := by
  obtain ⟨M, hM, hval⟩ := calculate_mind_network_some h
  set A := get_KL (rowsOf rows x) (rowsOf rows y) with hA
  set B := get_KL (rowsOf rows y) (rowsOf rows x) with hB
  have hA0 : 0 ≤ A := get_KL_nonneg _ _
  have hB0 : 0 ≤ B := get_KL_nonneg _ _
  have hden : 0 < 1 + (A + B) := by linarith
  have hMxy : M x y = 1 / (1 + (A + B)) := by
    rw [hval, if_pos (mem_ordPairs.2 ⟨hx, hy, hxy⟩)]
    rfl
  refine ⟨M, hM, hMxy, ?_, ?_, ?_⟩
  · rw [hMxy]
    exact one_div_pos.2 hden
  · rw [hMxy]
    rw [div_le_one hden]
    linarith
  · rw [hMxy]
    rw [div_eq_one_iff_eq (ne_of_gt hden)]
    constructor
    · intro h1
      constructor <;> linarith
    · rintro ⟨ha, hb⟩
      rw [ha, hb]
      norm_num

/-- Witness for C8 at the concrete two-region input. -/
theorem claim8_witness :
    ∃ M, calculate_mind_network [0, 1] rows₀ = some M ∧
      M 0 1 = 1 / (1 + (get_KL (rowsOf rows₀ 0) (rowsOf rows₀ 1)
        + get_KL (rowsOf rows₀ 1) (rowsOf rows₀ 0))) ∧
      0 < M 0 1 ∧ M 0 1 ≤ 1 ∧
      (M 0 1 = 1 ↔ get_KL (rowsOf rows₀ 0) (rowsOf rows₀ 1) = 0
        ∧ get_KL (rowsOf rows₀ 1) (rowsOf rows₀ 0) = 0) :=
  claim8_similarity_bounds [0, 1] rows₀ 0 1 (by simp) (by simp) (by decide)
    rows₀_data

/-! ## Claim C10: missing region data -/

/-- Counterexample to C10 as stated: with label `1` listed but owning no
rows, `calculate_mind_network` hits `kdtrees[1]` and dies with an uncaught
`KeyError` (modelled `none`) — the batch aborts; no skip signal or numeric
result is produced. -/
theorem claim10_counterexample :
    calculate_mind_network [0, 1] rows₁ = none := by
  unfold calculate_mind_network
  apply mind_fold_none
  refine ⟨(0, 1), by decide, Or.inr ?_⟩
  rfl

/-- C10 as amended: a listed region with no rows makes the whole build
raise (return `none`) — the missing data is *not* surfaced as a skip
signal; only when every listed region has rows does the computation
complete. -/
theorem claim10_amended (rl : List L) (rows : List (L × Pt dd)) :
    (∀ x y : L, x ∈ rl → y ∈ rl → x ≠ y → rowsOf rows x = [] →
      calculate_mind_network rl rows = none) ∧
    ((∀ l ∈ rl, rowsOf rows l ≠ []) →
      (calculate_mind_network rl rows).isSome = true) := by
  constructor
  · intro x y hx hy hxy hempty
    unfold calculate_mind_network
    apply mind_fold_none
    refine ⟨(x, y), mem_ordPairs.2 ⟨hx, hy, hxy⟩, Or.inl ?_⟩
    rw [rowsOf_restrict rows hx]
    exact hempty
  · intro h
    obtain ⟨M, hM, -⟩ := calculate_mind_network_some h
    rw [hM]
    rfl

/-- Witness for (amended) C10: label `1` has no rows in `rows₁`, so the
build returns `none`; with `rows₀` every label has rows and the build
completes. -/
theorem claim10_witness :
    calculate_mind_network [0, 1] rows₁ = none ∧
      (calculate_mind_network [0, 1] rows₀).isSome = true := by
  constructor
  · exact (claim10_amended [0, 1] rows₁).1 1 0 (by simp) (by simp) (by decide) rfl
  · exact (claim10_amended [0, 1] rows₀).2 rows₀_data

/-! ## Helper lemmas: univariate estimator -/

/-- The pointwise Gibbs bound: `a - b ≤ a · log(a/b)` for positive reals. -/
theorem sub_le_mul_log {a b : ℝ} (ha : 0 < a) (hb : 0 < b) :
    a - b ≤ a * Real.log (a / b) := by
  have h := Real.log_le_sub_one_of_pos (div_pos hb ha)
  have h2 : a * Real.log (b / a) ≤ a * (b / a - 1) :=
    mul_le_mul_of_nonneg_left h (le_of_lt ha)
  have h3 : a * (b / a - 1) = b - a := by
    field_simp
  have h4 : Real.log (a / b) = -Real.log (b / a) := by
    rw [← Real.log_inv, inv_div]
  have h5 : a * Real.log (a / b) = -(a * Real.log (b / a)) := by
    rw [h4]
    ring
  linarith [h2.trans_eq h3]

/-- The summed Gibbs bound over two positive lists of equal length. -/
theorem sum_sub_le_sum_mul_log :
    ∀ (p q : List ℝ), p.length = q.length →
      (∀ a ∈ p, 0 < a) → (∀ b ∈ q, 0 < b) →
      p.sum - q.sum ≤ ((p.zip q).map fun ab => ab.1 * Real.log (ab.1 / ab.2)).sum
  | [], [], _, _, _ => by simp
  | [], _ :: _, h, _, _ => by simp at h
  | _ :: _, [], h, _, _ => by simp at h
  | a :: p, b :: q, h, hp, hq => by
      have ih := sum_sub_le_sum_mul_log p q (by simpa using h)
        (fun z hz => hp z (List.mem_cons_of_mem _ hz))
        (fun z hz => hq z (List.mem_cons_of_mem _ hz))
      have hterm := sub_le_mul_log (hp a (by simp)) (hq b (by simp))
      simp only [List.zip_cons_cons, List.map_cons, List.sum_cons]
      linarith

theorem sum_map_div_fn {α : Type} (f : α → ℝ) (S : ℝ) :
    ∀ l : List α, (l.map fun x => f x / S).sum = (l.map f).sum / S
  | [] => by simp
  | a :: l => by
      simp only [List.map_cons, List.sum_cons, sum_map_div_fn f S l, add_div]

theorem sum_map_add_fn {α : Type} (f g : α → ℝ) :
    ∀ l : List α, (l.map fun x => f x + g x).sum = (l.map f).sum + (l.map g).sum
  | [] => by simp
  | a :: l => by
      simp only [List.map_cons, List.sum_cons, sum_map_add_fn f g l]
      ring

theorem sum_map_mul_const {α : Type} (f : α → ℝ) (c : ℝ) :
    ∀ l : List α, (l.map fun x => f x * c).sum = (l.map f).sum * c
  | [] => by simp
  | a :: l => by
      simp only [List.map_cons, List.sum_cons, sum_map_mul_const f c l]
      ring

/-- `scipy.stats.entropy` rewritten as the plain relative-entropy sum of the
two renormalised vectors. -/
theorem entropy_eq_norm_zip (p q : List ℝ) :
    entropy p q = (((p.map fun a => a / p.sum).zip (q.map fun b => b / q.sum)).map
      fun ab => ab.1 * Real.log (ab.1 / ab.2)).sum := by
  unfold entropy
  rw [List.zip_map, List.map_map]
  rfl

/-- Gibbs' inequality for the source's entropy call: with positive entries
of equal length the result is nonnegative. -/
theorem entropy_nonneg (p q : List ℝ) (hlen : p.length = q.length)
    (hp : ∀ a ∈ p, 0 < a) (hq : ∀ b ∈ q, 0 < b) : 0 ≤ entropy p q := by
  rcases eq_or_ne p [] with rfl | hne
  · have hq0 : q = [] := List.length_eq_zero.1 (by simpa using hlen.symm)
    subst hq0
    unfold entropy
    simp
  · have hqne : q ≠ [] := by
      intro hq0
      rw [hq0] at hlen
      exact hne (List.length_eq_zero.1 (by simpa using hlen))
    have hS1 : 0 < p.sum := List.sum_pos p hp hne
    have hS2 : 0 < q.sum := List.sum_pos q hq hqne
    rw [entropy_eq_norm_zip]
    have hbound := sum_sub_le_sum_mul_log (p.map fun a => a / p.sum)
      (q.map fun b => b / q.sum) (by simpa using hlen)
      (fun z hz => by
        obtain ⟨a, ha, rfl⟩ := List.mem_map.1 hz
        exact div_pos (hp a ha) hS1)
      (fun z hz => by
        obtain ⟨b, hb, rfl⟩ := List.mem_map.1 hz
        exact div_pos (hq b hb) hS2)
    have h1 : (p.map fun a => a / p.sum).sum = 1 := by
      rw [sum_map_div_fn (fun a => a) p.sum p]
      simp [div_self (ne_of_gt hS1)]
    have h2 : (q.map fun b => b / q.sum).sum = 1 := by
      rw [sum_map_div_fn (fun b => b) q.sum q]
      simp [div_self (ne_of_gt hS2)]
    rw [h1, h2] at hbound
    linarith

/-- Every bin of a strictly increasing edge list has positive width. -/
theorem intervals_pos :
    ∀ (edges : List ℚ), StrictEdges edges → ∀ pq ∈ intervals edges, pq.1 < pq.2
  | [], _, _, h => absurd h (by simp [intervals])
  | [_], _, _, h => absurd h (by simp [intervals])
  | a :: b :: t, hch, pq, h => by
      have h1 : a < b := (List.chain'_cons.1 hch).1
      have h2 : StrictEdges (b :: t) := (List.chain'_cons.1 hch).2
      have hI : intervals (a :: b :: t) = (a, b) :: intervals (b :: t) := rfl
      rw [hI] at h
      rcases List.mem_cons.1 h with rfl | h'
      · exact h1
      · exact intervals_pos (b :: t) h2 pq h'

theorem densities_nonneg {edges sample : List ℚ} (h : StrictEdges edges) :
    ∀ z ∈ densities edges sample, 0 ≤ z := by
  intro z hz
  unfold densities at hz
  obtain ⟨ci, hci, rfl⟩ := List.mem_map.1 hz
  have hmem2 := (List.of_mem_zip hci).2
  have hw : ci.2.1 < ci.2.2 := intervals_pos edges h ci.2 hmem2
  apply div_nonneg (Nat.cast_nonneg _)
  apply mul_nonneg (Nat.cast_nonneg _)
  have hw' : (0 : ℝ) < ((ci.2.2 - ci.2.1 : ℚ) : ℝ) := by
    exact_mod_cast sub_pos.2 hw
  exact le_of_lt hw'

theorem floorVal_pos : 0 < floorVal := by
  unfold floorVal
  norm_num

theorem floored_pos {edges sample : List ℚ} (h : StrictEdges edges) :
    ∀ z ∈ floored edges sample, 0 < z := by
  intro z hz
  unfold floored at hz
  obtain ⟨y, hy, rfl⟩ := List.mem_map.1 hz
  by_cases h0 : y = 0
  · rw [if_pos h0]
    exact floorVal_pos
  · rw [if_neg h0]
    exact lt_of_le_of_ne (densities_nonneg h y hy) (Ne.symm h0)

theorem histCountsGo_length (sample : List ℚ) :
    ∀ iv : List (ℚ × ℚ), (histCountsGo sample iv).length = iv.length
  | [] => rfl
  | [_] => rfl
  | _ :: q :: rest => by
      show (histCountsGo sample (q :: rest)).length + 1 = _
      rw [histCountsGo_length sample (q :: rest)]
      rfl

theorem floored_length (edges sample : List ℚ) :
    (floored edges sample).length = (intervals edges).length := by
  unfold floored densities histCounts
  simp [histCountsGo_length]

theorem kl_div_some {a b edges : List ℚ} (ha : inRange edges a ≠ 0)
    (hb : inRange edges b ≠ 0) :
    kl_div a b edges = some (entropy (floored edges a) (floored edges b)) := by
  unfold kl_div
  rw [if_neg (by simp [ha, hb])]

/-! ## Claim C4: both estimators are nonnegative -/

/-- C4: `get_KL` is always nonnegative (it returns `0` or a value clamped
with `np.maximum(·, 0)`), and the per-pair histogram divergence is
nonnegative whenever it is defined — `scipy.stats.entropy` renormalises
both floored (hence strictly positive) histograms, so Gibbs' inequality
applies. -/
theorem claim4_estimators_nonneg :
    (∀ (dd : ℕ) (x y : List (Pt dd)), 0 ≤ get_KL x y) ∧
    (∀ (a b edges : List ℚ), StrictEdges edges →
      0 ≤ (kl_div a b edges).getD 0) := by
  refine ⟨fun dd x y => get_KL_nonneg x y, fun a b edges he => ?_⟩
  by_cases h : inRange edges a = 0 ∨ inRange edges b = 0
  · unfold kl_div
    rw [if_pos h]
    exact le_refl 0
  · rw [kl_div_some (not_or.1 h).1 (not_or.1 h).2]
    show 0 ≤ entropy (floored edges a) (floored edges b)
    apply entropy_nonneg
    · rw [floored_length, floored_length]
    · exact floored_pos he
    · exact floored_pos he

theorem E₀_strict : StrictEdges E₀ := by
  unfold StrictEdges E₀
  simp only [List.chain'_cons, List.chain'_singleton, and_true]
  norm_num

/-- Witness for C4 at the concrete inputs. -/
theorem claim4_witness :
    0 ≤ get_KL X₀ Y₀ ∧ 0 ≤ (kl_div A₀ B₀ E₀).getD 0 :=
  ⟨claim4_estimators_nonneg.1 1 X₀ Y₀,
    claim4_estimators_nonneg.2 A₀ B₀ E₀ E₀_strict⟩

/-! ## Concrete histogram evaluations for the univariate witnesses -/

theorem histCounts_E₀_A₀ : histCounts E₀ A₀ = [1, 0] := by
  show histCounts [0, 1/2, 1] [1/4] = [1, 0]
  simp [histCounts, histCountsGo, intervals, binPred, List.countP_cons]
  norm_num

theorem inRange_E₀_A₀ : inRange E₀ A₀ = 1 := by
  rw [inRange, histCounts_E₀_A₀]
  rfl

theorem densities_E₀_A₀ : densities E₀ A₀ = [2, 0] := by
  unfold densities
  rw [histCounts_E₀_A₀, show intervals E₀ = [(0, 1/2), (1/2, 1)] from rfl]
  rw [show inRange E₀ A₀ = 1 from inRange_E₀_A₀]
  simp [List.zip_cons_cons]

theorem inRange_E₀_nil : inRange E₀ [] = 0 := rfl

theorem histCounts_E₀_B₀ : histCounts E₀ B₀ = [0, 1] := by
  show histCounts [0, 1/2, 1] [3/4] = [0, 1]
  simp [histCounts, histCountsGo, intervals, binPred, List.countP_cons]
  norm_num

theorem inRange_E₀_B₀ : inRange E₀ B₀ = 1 := by
  rw [inRange, histCounts_E₀_B₀]
  rfl

theorem densities_E₀_B₀ : densities E₀ B₀ = [0, 2] := by
  unfold densities
  rw [histCounts_E₀_B₀, show intervals E₀ = [(0, 1/2), (1/2, 1)] from rfl]
  rw [show inRange E₀ B₀ = 1 from inRange_E₀_B₀]
  simp [List.zip_cons_cons]
  norm_num

theorem floored_E₀_A₀ : floored E₀ A₀ = [2, floorVal] := by
  unfold floored
  rw [densities_E₀_A₀]
  norm_num

theorem floored_E₀_B₀ : floored E₀ B₀ = [floorVal, 2] := by
  unfold floored
  rw [densities_E₀_B₀]
  norm_num

theorem floored_A₀_sum : (floored E₀ A₀).sum = 2 + floorVal := by
  rw [floored_E₀_A₀]
  simp

theorem floored_B₀_sum : (floored E₀ B₀).sum = floorVal + 2 := by
  rw [floored_E₀_B₀]
  simp

theorem log_floor_ratio_pos : 0 < Real.log (2 / floorVal) := by
  apply Real.log_pos
  unfold floorVal
  norm_num

theorem claimed_A₀B₀ :
    claimedUniKL A₀ B₀ E₀ = (2 - floorVal) * Real.log (2 / floorVal) := by
  unfold claimedUniKL
  rw [floored_E₀_A₀, floored_E₀_B₀]
  have hlog : Real.log (floorVal / 2) = -Real.log (2 / floorVal) := by
    rw [← Real.log_inv, inv_div]
  simp only [List.zip_cons_cons, List.zip_nil_right, List.map_cons, List.map_nil,
    List.sum_cons, List.sum_nil, hlog]
  ring

/-- The renormalisation `scipy.stats.entropy` performs, made explicit: its
value is the claimed unnormalised sum divided by the first histogram's mass,
plus the log of the mass ratio. -/
theorem entropy_eq_claimed (p q : List ℝ) (hlen : p.length = q.length)
    (hp : ∀ a ∈ p, 0 < a) (hq : ∀ b ∈ q, 0 < b) :
    entropy p q =
      ((p.zip q).map fun ab => ab.1 * Real.log (ab.1 / ab.2)).sum / p.sum
        + Real.log (q.sum / p.sum) := by
  rcases eq_or_ne p [] with rfl | hne
  · have hq0 : q = [] := List.length_eq_zero.1 (by simpa using hlen.symm)
    subst hq0
    unfold entropy
    simp
  · have hqne : q ≠ [] := by
      intro hq0
      rw [hq0] at hlen
      exact hne (List.length_eq_zero.1 (by simpa using hlen))
    have hS1 : 0 < p.sum := List.sum_pos p hp hne
    have hS2 : 0 < q.sum := List.sum_pos q hq hqne
    have hstep : ∀ ab ∈ p.zip q,
        (ab.1 / p.sum) * Real.log ((ab.1 / p.sum) / (ab.2 / q.sum)) =
          ab.1 * Real.log (ab.1 / ab.2) / p.sum
            + ab.1 * (Real.log (q.sum / p.sum) / p.sum) := by
      intro ab hab
      obtain ⟨ha, hb⟩ := List.of_mem_zip hab
      have ha0 := hp _ ha
      have hb0 := hq _ hb
      have harg : (ab.1 / p.sum) / (ab.2 / q.sum)
          = (ab.1 / ab.2) * (q.sum / p.sum) := by
        field_simp
        ring
      rw [harg, Real.log_mul (ne_of_gt (div_pos ha0 hb0))
        (ne_of_gt (div_pos hS2 hS1))]
      ring
    unfold entropy
    rw [List.map_congr_left hstep]
    rw [sum_map_add_fn (fun ab : ℝ × ℝ => ab.1 * Real.log (ab.1 / ab.2) / p.sum)
      (fun ab : ℝ × ℝ => ab.1 * (Real.log (q.sum / p.sum) / p.sum)) (p.zip q)]
    congr 1
    · exact sum_map_div_fn (fun ab : ℝ × ℝ => ab.1 * Real.log (ab.1 / ab.2))
        p.sum (p.zip q)
    · rw [sum_map_mul_const (fun ab : ℝ × ℝ => ab.1)
        (Real.log (q.sum / p.sum) / p.sum) (p.zip q)]
      have hfst : List.map (fun ab : ℝ × ℝ => ab.1) (p.zip q) = p := by
        rw [show (fun ab : ℝ × ℝ => ab.1) = (Prod.fst : ℝ × ℝ → ℝ) from rfl]
        exact List.map_fst_zip p q (le_of_eq hlen)
      rw [hfst]
      field_simp

/-! ## Claim C6: the exact value of the univariate estimator -/

/-- C6 as amended: because `scipy.stats.entropy` renormalises both floored
histograms to unit mass, the per-pair value is not the claimed raw sum
`Σ pA·ln(pA/pB)` but that sum divided by `Σ pA`, plus `ln(Σ pB / Σ pA)`;
the two agree only when both floored histograms already sum to one. -/
theorem claim6_amended (a b edges : List ℚ) (he : StrictEdges edges)
    (ha : inRange edges a ≠ 0) (hb : inRange edges b ≠ 0) :
    kl_div a b edges =
      some (claimedUniKL a b edges / (floored edges a).sum
        + Real.log ((floored edges b).sum / (floored edges a).sum)) := by
  rw [kl_div_some ha hb]
  congr 1
  rw [entropy_eq_claimed _ _ (by rw [floored_length, floored_length])
    (floored_pos he) (floored_pos he)]
  rfl

/-- Counterexample to C6 as stated: over the two-bin edges `E₀` the floored
densities are `[2, 1e-10]` and `[1e-10, 2]`, whose mass is `2 + 1e-10 ≠ 1`;
the code's (renormalised) value is strictly smaller than the claimed
unnormalised sum, so the estimator does not return the claimed formula. -/
theorem claim6_counterexample :
    kl_div A₀ B₀ E₀ ≠ some (claimedUniKL A₀ B₀ E₀) := by
  have hA : inRange E₀ A₀ ≠ 0 := by
    rw [inRange_E₀_A₀]
    exact one_ne_zero
  have hB : inRange E₀ B₀ ≠ 0 := by
    rw [inRange_E₀_B₀]
    exact one_ne_zero
  rw [kl_div_some hA hB]
  intro h
  have hv := Option.some.inj h
  have hent : entropy (floored E₀ A₀) (floored E₀ B₀)
      = claimedUniKL A₀ B₀ E₀ / (2 + floorVal) := by
    rw [entropy_eq_claimed _ _ (by rw [floored_length, floored_length])
      (floored_pos E₀_strict) (floored_pos E₀_strict)]
    rw [floored_A₀_sum, floored_B₀_sum]
    have hzero : Real.log ((floorVal + 2) / (2 + floorVal)) = 0 := by
      rw [show floorVal + 2 = 2 + floorVal from by ring,
        div_self (by unfold floorVal; norm_num)]
      exact Real.log_one
    rw [hzero, add_zero]
    rfl
  rw [hent] at hv
  have hCL : 0 < claimedUniKL A₀ B₀ E₀ := by
    rw [claimed_A₀B₀]
    exact mul_pos (by unfold floorVal; norm_num) log_floor_ratio_pos
  have hS : 1 < 2 + floorVal := by
    unfold floorVal
    norm_num
  have hlt := div_lt_self hCL hS
  rw [hv] at hlt
  exact lt_irrefl _ hlt

/-- Witness for (amended) C6 at the concrete samples and edges. -/
theorem claim6_witness :
    kl_div A₀ B₀ E₀ =
      some (claimedUniKL A₀ B₀ E₀ / (floored E₀ A₀).sum
        + Real.log ((floored E₀ B₀).sum / (floored E₀ A₀).sum)) :=
  claim6_amended A₀ B₀ E₀ E₀_strict
    (by rw [inRange_E₀_A₀]; exact one_ne_zero)
    (by rw [inRange_E₀_B₀]; exact one_ne_zero)

/-! ## Claim C7: behaviour on an empty scalar sample -/

/-- Counterexample to C7 as stated: for an empty sample numpy's
`density=True` normalisation divides the counts by a zero in-range total,
producing an all-`nan` histogram that the `== 0` floor does not repair, and
`scipy.stats.entropy` then returns `nan` (modelled `none`) — not a defined,
finite, near-zero value. -/
theorem claim7_counterexample : kl_div [] B₀ E₀ = none := by
  unfold kl_div
  rw [if_pos (Or.inl inRange_E₀_nil)]

/-- C7 as amended: the per-pair value is defined (no `nan`) exactly when
both samples have at least one value inside the bin range; an empty sample
always falls outside this case and yields `nan`. -/
theorem claim7_amended (a b edges : List ℚ) :
    (kl_div a b edges).isSome = true ↔
      inRange edges a ≠ 0 ∧ inRange edges b ≠ 0 := by
  unfold kl_div
  by_cases h : inRange edges a = 0 ∨ inRange edges b = 0
  · rw [if_pos h]
    simp only [Option.isSome_none, Bool.false_eq_true, false_iff, not_and]
    tauto
  · rw [if_neg h]
    simp only [Option.isSome_some, true_iff]
    exact not_or.1 h

/-- Witness for (amended) C7: both concrete samples have in-range values.  -/
theorem claim7_witness : (kl_div A₀ B₀ E₀).isSome = true :=
  (claim7_amended A₀ B₀ E₀).2
    ⟨by rw [inRange_E₀_A₀]; exact one_ne_zero,
      by rw [inRange_E₀_B₀]; exact one_ne_zero⟩

/-! ## Claim C9: one bin-edge sequence shared by every pair -/

/-- C9: inside a subject's run, every emitted pair divergence was computed
by handing the single edge sequence — derived once from the pooled
concatenation of all regions' samples — to both histograms of `kl_div`
(which applies its `edges` argument to both samples); no per-pair
recomputation exists by construction. -/
theorem claim9_shared_edges (dists : List (L × List ℚ))
    (r1 r2 : L) (v : Option ℝ) (hmem : (r1, r2, v) ∈ main_subject dists) :
    v = kl_div ((dists.lookup r1).getD []) ((dists.lookup r2).getD [])
        (binEdges ((dists.map Prod.snd).flatten) 100) := by
  unfold main_subject compute_kl_divergence at hmem
  obtain ⟨pr, hpr, heq⟩ := List.mem_map.1 hmem
  simp only [Prod.mk.injEq] at heq
  obtain ⟨h1, h2, h3⟩ := heq
  subst h1
  subst h2
  exact h3.symm

/-- Witness for C9 at the two-region table `dists₀`. -/
theorem claim9_witness :
    kl_div ((dists₀.lookup 0).getD []) ((dists₀.lookup 1).getD [])
        (binEdges ((dists₀.map Prod.snd).flatten) 100) =
      kl_div ((dists₀.lookup 0).getD []) ((dists₀.lookup 1).getD [])
        (binEdges ((dists₀.map Prod.snd).flatten) 100) := by
  have hmem : ((0 : ℕ), (1 : ℕ),
      kl_div ((dists₀.lookup 0).getD []) ((dists₀.lookup 1).getD [])
        (binEdges ((dists₀.map Prod.snd).flatten) 100)) ∈ main_subject dists₀ := by
    unfold main_subject compute_kl_divergence
    apply List.mem_map.2
    exact ⟨((0 : ℕ), (1 : ℕ)), by decide, rfl⟩
  exact claim9_shared_edges dists₀ 0 1 _ hmem

end VBM
